import Mathlib

/-!
Shallow embedding of the autoregressive sampling core of `src/main.js`
(the dance-generation frontend): mixture sampling (`sampleFromMixture`,
`sampleFromCategorical`, `sampleFromGaussian`), pose reshaping
(`reshapeKeypoints`), temporal smoothing (`smoothPose` over `poseHistory`),
the sliding sequence window (the `shift`/`push` pair in `runGenerationStep`),
and the generation-loop state transitions (`runGenerationStep` entry check,
post-await processing, `stopGeneration`).

Modelling conventions: JavaScript numbers are modelled as rationals; the
transcendental primitives `Math.exp`, `Math.log`, `Math.sqrt`, `Math.cos`
and the constant `Math.PI` are abstract parameters collected in `Prims`;
each call of `Math.random()` is an explicit rational argument (a stream
`Nat → ℚ` where several draws occur); a JavaScript value that is `NaN` or
`undefined` in a numeric position is modelled as `none : Option ℚ`.
-/

namespace Move

/-- A pose as produced by `reshapeKeypoints`: a list of (x, y) keypoints. -/
abbrev Pose := List (ℚ × ℚ)

/-- A flat interleaved keypoint vector, the model's native representation. -/
abbrev FlatVector := List ℚ

/-- Abstract packs of the JavaScript math primitives used by `main.js`:
`Math.exp`, `Math.log`, `Math.sqrt`, `Math.cos` and `Math.PI`. -/
structure Prims where
  exp : ℚ → ℚ
  log : ℚ → ℚ
  sqrt : ℚ → ℚ
  cos : ℚ → ℚ
  pi : ℚ

/-- ECMAScript `slice(start, end)` on an array of numbers: a negative index
counts from the end (clamped at 0), a positive index is clamped at the
length; used for `mu.slice(componentIdx * outputSize, ...)` in
`sampleFromMixture` (src/main.js lines 399-407). -/
def jsSlice (l : List ℚ) (s e : Int) : List ℚ :=
  let len : Int := l.length
  let k : Int := if s < 0 then max (len + s) 0 else min s len
  let fin : Int := if e < 0 then max (len + e) 0 else min e len
  (l.drop k.toNat).take (fin - k).toNat

/-- The value of `Math.max(...l)` for a nonempty list `l`; `Math.max()` of an
empty spread is `-Infinity`, modelled as `none` (callers handle it). -/
def listMax : List ℚ → Option ℚ
  | [] => none
  | x :: rest => some ((listMax rest).elim x (max x))

/-- The fallback `probs.indexOf(Math.max(...probs))` of
`sampleFromCategorical` (src/main.js line 438): the first index holding the
maximum value; for an empty array `Math.max()` is `-Infinity` and
`[].indexOf(-Infinity)` is `-1`. -/
def maxIndexFallback (probs : List ℚ) : Int :=
  match listMax probs with
  | some m => probs.indexOf m
  | none => -1

/-- The cumulative-sum loop of `sampleFromCategorical` (src/main.js lines
430-435): starting from accumulator `acc`, return the offset of the first
entry whose running sum exceeds `r` (`r < cumSum`), or `none`. -/
def catFind (r : ℚ) (acc : ℚ) : List ℚ → Option Nat
  | [] => none
  | p :: rest => if r < acc + p then some 0 else (catFind r (acc + p) rest).map Nat.succ

/-- Embedding of `sampleFromCategorical(probs)` (src/main.js lines 426-439),
with the single `Math.random()` draw passed explicitly as `r`. -/
def sampleFromCategorical (r : ℚ) (probs : List ℚ) : Int :=
  match catFind r 0 probs with
  | some i => (i : Int)
  | none => maxIndexFallback probs

/-- Embedding of `sampleFromGaussian(mean, stddev)` (src/main.js lines
447-455), with the two `Math.random()` draws passed explicitly as `u1`, `u2`.
`mean`/`stddev` are `Option ℚ` because the call sites index into slices that
may be shorter than `outputSize` (then the argument is `undefined` and the
result is `NaN`, modelled `none`). Note the code passes `u1` to `Math.log`
with no guard against `u1 = 0`. -/
def sampleFromGaussian (P : Prims) (u1 u2 : ℚ) (mean stddev : Option ℚ) : Option ℚ :=
  let z0 := P.sqrt (-2 * P.log u1) * P.cos (2 * P.pi * u2)
  match mean, stddev with
  | some m, some s => some (m + s * z0)
  | _, _ => none

/-- The component-weight computation of `sampleFromMixture` (src/main.js
lines 366-393): for `temperature ≠ 1`, scale each logit by `1/temperature`
and apply a max-subtracting softmax; for `temperature = 1`, copy the raw
`pi` values. `maxLogit` defaults to 0 when `numMixtures = 0` (in the code it
would be `-Infinity`, but it is then never used since the weight loop body
runs zero times). -/
def componentWeights (P : Prims) (pi_ : List ℚ) (numMixtures : Nat) (temperature : ℚ) :
    List ℚ :=
  if temperature ≠ 1 then
    let scaledPi := (List.range numMixtures).map (fun i => pi_.getD i 0 / temperature)
    let maxLogit := (listMax scaledPi).getD 0
    let weights0 := scaledPi.map (fun x => P.exp (x - maxLogit))
    let sumExp := weights0.sum
    weights0.map (fun w => w / sumExp)
  else
    (List.range numMixtures).map (fun i => pi_.getD i 0)

/-- Embedding of `sampleFromMixture(pi, mu, sigma, outputSize, numMixtures,
temperature)` (src/main.js lines 365-419). `rand k` is the k-th
`Math.random()` draw of the call: draw 0 feeds the categorical selection and
draws `1 + 2*i`, `2 + 2*i` feed the Box-Muller transform of dimension `i`. -/
def sampleFromMixture (P : Prims) (rand : Nat → ℚ) (pi_ mu sigma : List ℚ)
    (outputSize numMixtures : Nat) (temperature : ℚ) : List (Option ℚ) :=
  let weights := componentWeights P pi_ numMixtures temperature
  let componentIdx := sampleFromCategorical (rand 0) weights
  let selectedMu := jsSlice mu (componentIdx * outputSize) ((componentIdx + 1) * outputSize)
  let selectedSigma := jsSlice sigma (componentIdx * outputSize) ((componentIdx + 1) * outputSize)
  let scaledSigma := selectedSigma.map (fun s => s * temperature)
  (List.range outputSize).map (fun i =>
    sampleFromGaussian P (rand (1 + 2 * i)) (rand (2 + 2 * i))
      (selectedMu.get? i) (scaledSigma.get? i))

/-- Embedding of `reshapeKeypoints(flatKeypoints)` (src/main.js lines
462-470): pair up consecutive entries. A trailing odd entry would be paired
with `undefined` in JavaScript; model inputs are interleaved x,y vectors of
even length, where that case does not arise (it is mapped to 0 here). -/
def reshapeKeypoints : List ℚ → Pose
  | [] => []
  | [x] => [(x, 0)]
  | x :: y :: rest => (x, y) :: reshapeKeypoints rest

/-- The bound `MAX_HISTORY` on `poseHistory` (src/main.js line 23). -/
def MAX_HISTORY : Nat := 5

/-- The inner history loop of `smoothPose` for keypoint index `i` with
incoming value `xy` (src/main.js lines 249-266): iterate `j` from 0 (most
recent history entry) upward; skip an entry if index `i` is out of range or
the stored keypoint is the (0,0) sentinel; otherwise blend with weight
`0.6 * 0.5^j`. -/
def smoothKeypoint (i : Nat) (xy : ℚ × ℚ) (history : List Pose) : ℚ × ℚ :=
  history.enum.foldl (fun acc jp =>
    match jp.2.get? i with
    | none => acc
    | some hv =>
      if hv.1 = 0 ∧ hv.2 = 0 then acc
      else
        let w := (3 / 5 : ℚ) * (1 / 2) ^ jp.1
        (acc.1 * (1 - w) + hv.1 * w, acc.2 * (1 - w) + hv.2 * w)) xy

/-- Embedding of `smoothPose(newPose)` (src/main.js lines 226-272), with the
captured `poseHistory` passed explicitly: return `newPose` unchanged when
the history is empty; otherwise keep (0,0) sentinel keypoints as (0,0) and
blend every other keypoint against the history via `smoothKeypoint`. -/
def smoothPose (poseHistory : List Pose) (newPose : Pose) : Pose :=
  if poseHistory = [] then newPose
  else
    newPose.enum.map (fun ikp =>
      if ikp.2.1 = 0 ∧ ikp.2.2 = 0 then (0, 0)
      else smoothKeypoint ikp.1 ikp.2 poseHistory)

/-- The history update of `runGenerationStep` (src/main.js lines 317-320):
`poseHistory.unshift(newPose)` followed by `poseHistory.pop()` when the
length exceeds `MAX_HISTORY`. -/
def pushHistory (poseHistory : List Pose) (newPose : Pose) : List Pose :=
  let h := newPose :: poseHistory
  if h.length > MAX_HISTORY then h.dropLast else h

/-- The sequence-window advance of `runGenerationStep` (src/main.js lines
309-311): `inputSequence.shift()` (drop index 0; a no-op on an empty array)
then `inputSequence.push(nextPose)` (append at the end). -/
def advance (w : List FlatVector) (v : FlatVector) : List FlatVector :=
  w.tail ++ [v]

/-- N-fold window advance: apply `advance` for each appended vector in order. -/
def advanceN (w : List FlatVector) (vs : List FlatVector) : List FlatVector :=
  vs.foldl advance w

/-- The generation-loop state mutated by `runGenerationStep`,
`startGeneration` and `stopGeneration`: the `isGenerating` flag, the sliding
`inputSequence` window, the smoothing `poseHistory`, and the list of poses
handed to `visualizer.drawPose` so far (most recent last). -/
structure GenState where
  isGenerating : Bool
  inputSequence : List FlatVector
  poseHistory : List Pose
  emitted : List Pose

/-- The post-await portion of `runGenerationStep` (src/main.js lines
300-327), given the sampled `nextPose`: advance the window, reshape, push
the unsmoothed pose onto the history (truncated to `MAX_HISTORY`), smooth
against the updated history, and emit the smoothed pose. The code performs
this unconditionally on resumption: there is no `isGenerating` re-check
after `await session.run(feeds)`. -/
def processResult (s : GenState) (nextPose : FlatVector) : GenState :=
  let inputSequence := advance s.inputSequence nextPose
  let newPose := reshapeKeypoints nextPose
  let poseHistory := pushHistory s.poseHistory newPose
  let smoothedPose := smoothPose poseHistory newPose
  { s with
    inputSequence := inputSequence
    poseHistory := poseHistory
    emitted := s.emitted ++ [smoothedPose] }

/-- Embedding of `stopGeneration()` (src/main.js lines 344-353): clear the
`isGenerating` flag (the cancelled animation frame only affects scheduling
of future steps, which `runStepWithResult` models through its entry check). -/
def stopGeneration (s : GenState) : GenState :=
  { s with isGenerating := false }

/-- One full `runGenerationStep` with no interleaved `stopGeneration`: the
entry check `if (!isGenerating) return` (src/main.js line 279) followed, when
running, by the post-await processing of the inference result. -/
def runStepWithResult (s : GenState) (nextPose : FlatVector) : GenState :=
  if s.isGenerating then processResult s nextPose else s

/-- Modelled from the spec: the `InvalidDistribution` error condition of the
MixtureSampler contract (spec section 4.1 / section 7) — the inputs on which
`sampleFromMixture` is claimed to fail: zero mixture components, zero output
dimensionality, or a negative provided stddev. The source `sampleFromMixture`
has no corresponding check. -/
def mixtureInvalidDistribution (numMixtures outputSize : Nat) (sigma : List ℚ) : Prop :=
  numMixtures = 0 ∨ outputSize = 0 ∨ ∃ s ∈ sigma, s < 0

/-- Modelled from the spec: the history loop of smoothing as section 4.3
words it, with the update applied "iteratively from oldest-considered to
most-recent" — the same blend as `smoothKeypoint` but folding the history
entries in reverse index order (largest `j` first). -/
def smoothKeypointSpec (i : Nat) (xy : ℚ × ℚ) (history : List Pose) : ℚ × ℚ :=
  history.enum.reverse.foldl (fun acc jp =>
    match jp.2.get? i with
    | none => acc
    | some hv =>
      if hv.1 = 0 ∧ hv.2 = 0 then acc
      else
        let w := (3 / 5 : ℚ) * (1 / 2) ^ jp.1
        (acc.1 * (1 - w) + hv.1 * w, acc.2 * (1 - w) + hv.2 * w)) xy

/-- Modelled from the spec: `smoothPose` with the spec-ordered history loop
`smoothKeypointSpec` in place of the source-ordered `smoothKeypoint`. -/
def smoothPoseSpec (poseHistory : List Pose) (newPose : Pose) : Pose :=
  if poseHistory = [] then newPose
  else
    newPose.enum.map (fun ikp =>
      if ikp.2.1 = 0 ∧ ikp.2.2 = 0 then (0, 0)
      else smoothKeypointSpec ikp.1 ikp.2 poseHistory)

/-- A concrete primitive pack: identity transcendentals (`Math.log 0` valued 0). -/
def gaussPrimsA : Prims := ⟨id, fun _ => 0, id, fun _ => 1, 0⟩

/-- A concrete primitive pack agreeing with `gaussPrimsA` everywhere except
on the value of `log` at 0. -/
def gaussPrimsB : Prims := ⟨id, fun x => if x = 0 then 1 else 0, id, fun _ => 1, 0⟩

/-- A concrete running loop state: window of two one-dimensional vectors,
empty history, nothing emitted yet. -/
def genStateA : GenState := ⟨true, [[1], [2]], [], []⟩

/-- A concrete running loop state with one prior pose in the history. -/
def genStateB : GenState := ⟨true, [[0, 0]], [[(4, 5)]], []⟩


theorem sampleFromGaussian_none_mean (P : Prims) (u1 u2 : ℚ) (sd : Option ℚ) :
    sampleFromGaussian P u1 u2 none sd = none := by
  cases sd <;> rfl

theorem sampleFromCategorical_nil (r : ℚ) : sampleFromCategorical r [] = -1 := rfl

theorem componentWeights_zero (P : Prims) (pi_ : List ℚ) (t : ℚ) :
    componentWeights P pi_ 0 t = [] := by
  unfold componentWeights
  split <;> simp

theorem jsSlice_end_zero (l : List ℚ) (s : Int) : jsSlice l s 0 = [] := by
  apply List.length_eq_zero.mp
  simp only [jsSlice, List.length_take, List.length_drop]
  split_ifs with h1 h2 <;> omega

/-- C2, counterexample: on the input with zero mixture components (M = 0,
D = 1), which the claim says must fail with InvalidDistribution,
`sampleFromMixture` returns normally with a length-1 vector (its single
entry the NaN model `none`): the claimed failure does not occur. -/
theorem c2_counterexample :
    mixtureInvalidDistribution 0 1 [] ∧
    sampleFromMixture gaussPrimsA (fun _ => 0) [] [] [] 1 0 1 = [none] := by
  exact ⟨Or.inl rfl, by decide⟩

/-- C2, amended: `sampleFromMixture` performs no input validation and never
fails: for every input — including M = 0, D = 0, and negative stddevs — it
returns a vector of exactly `outputSize` entries. -/
theorem c2_never_fails (P : Prims) (rand : Nat → ℚ) (pi_ mu sigma : List ℚ)
    (outputSize numMixtures : Nat) (temperature : ℚ) :
    (sampleFromMixture P rand pi_ mu sigma outputSize numMixtures temperature).length
      = outputSize := by
  simp [sampleFromMixture]

/-- C5: the code has no guard on `u1`: two primitive packs that agree on
`log` at every nonzero argument (and agree on all other primitives) give
different samples when the random source draws `u1 = 0`, so
`sampleFromGaussian` does evaluate the logarithm at zero for that state of
the random source — contradicting the claim that `log 0` is never
evaluated. -/
theorem c5_log_zero_evaluated :
    (∀ x : ℚ, x ≠ 0 → gaussPrimsA.log x = gaussPrimsB.log x) ∧
    gaussPrimsA.exp = gaussPrimsB.exp ∧ gaussPrimsA.sqrt = gaussPrimsB.sqrt ∧
    gaussPrimsA.cos = gaussPrimsB.cos ∧ gaussPrimsA.pi = gaussPrimsB.pi ∧
    sampleFromGaussian gaussPrimsA 0 0 (some 0) (some 1) ≠
      sampleFromGaussian gaussPrimsB 0 0 (some 0) (some 1) := by
  have ha : sampleFromGaussian gaussPrimsA 0 0 (some 0) (some 1) = some 0 := by
    simp [sampleFromGaussian, gaussPrimsA]
  have hb : sampleFromGaussian gaussPrimsB 0 0 (some 0) (some 1) = some (-2) := by
    simp [sampleFromGaussian, gaussPrimsB]
  refine ⟨?_, rfl, rfl, rfl, rfl, ?_⟩
  · intro x hx
    simp [gaussPrimsA, gaussPrimsB, hx]
  · rw [ha, hb]
    simp

/-- C8: for every history contents and every pose, a keypoint equal to the
missing-sentinel (0,0) is output as exactly (0,0) by smoothing. -/
theorem c8_missing_sentinel_kept (poseHistory : List Pose) (newPose : Pose) (i : Nat)
    (h : newPose.get? i = some (0, 0)) :
    (smoothPose poseHistory newPose).get? i = some (0, 0) := by
  unfold smoothPose
  split
  · exact h
  · rw [List.get?_map, List.get?_enum, h]
    simp

/-- C8, witness: concrete instance with a nonempty history of non-missing
keypoints. -/
theorem c8_witness :
    ([(0, 0)] : Pose).get? 0 = some (0, 0) ∧
    (smoothPose [[(1, 1)], [(2, 2)]] [(0, 0)]).get? 0 = some (0, 0) :=
  ⟨by decide, c8_missing_sentinel_kept [[(1, 1)], [(2, 2)]] [(0, 0)] 0 (by decide)⟩

/-- C10: `sampleFromCategorical` on an empty probability array returns -1
(no error is raised), and `sampleFromMixture` with zero mixture components
proceeds: the mean/stddev slices taken at component index -1 are empty and
the function returns a length-D vector (every entry the NaN model `none`)
instead of failing. -/
theorem c10_empty_mixture (r : ℚ) (P : Prims) (rand : Nat → ℚ) (pi_ mu sigma : List ℚ)
    (outputSize : Nat) (temperature : ℚ) :
    sampleFromCategorical r [] = -1 ∧
    jsSlice mu (-1 * (outputSize : Int)) ((-1 + 1) * (outputSize : Int)) = [] ∧
    sampleFromMixture P rand pi_ mu sigma outputSize 0 temperature
      = List.replicate outputSize none := by
  have harith : ((-1 : Int) + 1) * (outputSize : Int) = 0 := by ring
  refine ⟨rfl, ?_, ?_⟩
  · rw [harith, jsSlice_end_zero]
  · simp only [sampleFromMixture, componentWeights_zero, sampleFromCategorical_nil, harith,
      jsSlice_end_zero]
    simp [sampleFromGaussian_none_mean, List.map_const']


theorem pushHistory_head (h : List Pose) (p : Pose) : (pushHistory h p).head? = some p := by
  simp only [pushHistory]
  split
  · next hlen =>
    cases h with
    | nil => simp [MAX_HISTORY] at hlen
    | cons q t => simp
  · rfl

theorem advance_length (w : List FlatVector) (v : FlatVector) (hw : w ≠ []) :
    (advance w v).length = w.length := by
  have := List.length_pos.mpr hw
  simp [advance]
  omega

/-- C1, amended: if `stop()` is called while a step is suspended awaiting
the inference result, the resuming step is NOT discarded: it completes
fully — the window advances by one (its length preserved), exactly one pose
is emitted, and the unsmoothed new pose is pushed onto the history. The
cancellation takes effect only at the next step's entry check, which is a
no-op. -/
theorem c1_stop_midstep_completes (s : GenState) (v : FlatVector)
    (hg : s.isGenerating = true) (hw : s.inputSequence ≠ []) :
    (processResult (stopGeneration s) v).inputSequence = advance s.inputSequence v ∧
    (processResult (stopGeneration s) v).inputSequence.length = s.inputSequence.length ∧
    (processResult (stopGeneration s) v).emitted.length = s.emitted.length + 1 ∧
    (processResult (stopGeneration s) v).poseHistory.head? = some (reshapeKeypoints v) ∧
    (processResult (stopGeneration s) v).isGenerating = false ∧
    ∀ w2, runStepWithResult (processResult (stopGeneration s) v) w2
        = processResult (stopGeneration s) v := by
  refine ⟨rfl, ?_, ?_, ?_, rfl, ?_⟩
  · exact advance_length _ _ hw
  · simp [processResult, stopGeneration]
  · exact pushHistory_head _ _
  · intro w2
    simp [runStepWithResult, processResult, stopGeneration]

/-- C1, witness: the amended theorem instantiated at a concrete running
state with window [[1],[2]] and sampled vector [9,9]. -/
theorem c1_witness :
    (processResult (stopGeneration genStateA) [9, 9]).inputSequence
        = advance genStateA.inputSequence [9, 9] ∧
    (processResult (stopGeneration genStateA) [9, 9]).inputSequence.length
        = genStateA.inputSequence.length ∧
    (processResult (stopGeneration genStateA) [9, 9]).emitted.length
        = genStateA.emitted.length + 1 ∧
    (processResult (stopGeneration genStateA) [9, 9]).poseHistory.head?
        = some (reshapeKeypoints [9, 9]) ∧
    (processResult (stopGeneration genStateA) [9, 9]).isGenerating = false ∧
    ∀ w2, runStepWithResult (processResult (stopGeneration genStateA) [9, 9]) w2
        = processResult (stopGeneration genStateA) [9, 9] :=
  c1_stop_midstep_completes genStateA [9, 9] rfl (by decide)

/-- C1, counterexample: from the running state `genStateA`, stopping during
the inference await and then resuming leaves the window the same length but
with changed contents, emits a pose, and updates the history — refuting the
claim that the in-flight result is discarded (window unchanged, no emission,
no history update). -/
theorem c1_counterexample :
    genStateA.isGenerating = true ∧
    (processResult (stopGeneration genStateA) [9, 9]).inputSequence.length
      = genStateA.inputSequence.length ∧
    (processResult (stopGeneration genStateA) [9, 9]).inputSequence
      ≠ genStateA.inputSequence ∧
    (processResult (stopGeneration genStateA) [9, 9]).emitted ≠ genStateA.emitted ∧
    (processResult (stopGeneration genStateA) [9, 9]).poseHistory
      ≠ genStateA.poseHistory := by
  refine ⟨rfl, rfl, ?_, ?_, ?_⟩ <;>
    norm_num [genStateA, processResult, stopGeneration, advance, pushHistory, MAX_HISTORY,
      reshapeKeypoints, smoothPose, smoothKeypoint, List.enum, List.enumFrom]

/-- C3, counterexample: with prior history [[(4,5)]] and sampled vector
[2,3], the step emits [(13/5, 18/5)], not the value [(16/5, 21/5)] that
smoothing against the pre-push history would give — so the pose is pushed
onto the history BEFORE the smoothing computation, not after. -/
theorem c3_counterexample :
    (processResult genStateB [2, 3]).emitted.getLast? = some [(13/5, 18/5)] ∧
    smoothPose genStateB.poseHistory (reshapeKeypoints [2, 3]) = [(16/5, 21/5)] ∧
    (processResult genStateB [2, 3]).emitted.getLast?
      ≠ some (smoothPose genStateB.poseHistory (reshapeKeypoints [2, 3])) := by
  have e1 : (processResult genStateB [2, 3]).emitted.getLast? = some [(13/5, 18/5)] := by
    norm_num [genStateB, processResult, pushHistory, MAX_HISTORY, reshapeKeypoints,
      smoothPose, smoothKeypoint, List.enum, List.enumFrom] <;> simp
  have e2 : smoothPose genStateB.poseHistory (reshapeKeypoints [2, 3]) = [(16/5, 21/5)] := by
    norm_num [genStateB, reshapeKeypoints, smoothPose, smoothKeypoint,
      List.enum, List.enumFrom]
  refine ⟨e1, e2, ?_⟩
  rw [e1, e2]
  norm_num

/-- C3, amended: during a generation step the unsmoothed new pose is pushed
onto the front of PoseHistory (truncated to H = 5) BEFORE the smoothing
computation, so the history consulted by smooth has the current pose at
index 0; with one prior pose its keypoints are blended at weight
0.6·0.5 = 0.3 (the 7/10-3/10 formula below), not at 0.6. -/
theorem c3_history_pushed_before_smoothing (g : Bool) (w : List FlatVector) (e : List Pose)
    (x y a b : ℚ) (hx : ¬(x = 0 ∧ y = 0)) (ha : ¬(a = 0 ∧ b = 0)) :
    (pushHistory [[(a, b)]] [(x, y)]).head? = some [(x, y)] ∧
    (processResult ⟨g, w, [[(a, b)]], e⟩ [x, y]).emitted.getLast?
      = some [(x * (7/10) + a * (3/10), y * (7/10) + b * (3/10))] := by
  refine ⟨pushHistory_head _ _, ?_⟩
  simp only [processResult, List.getLast?_concat, Option.some.injEq]
  simp [reshapeKeypoints, pushHistory, MAX_HISTORY, smoothPose, smoothKeypoint,
    List.enum, List.enumFrom, hx, ha]
  constructor <;> ring

/-- C3, witness: the amended theorem at concrete values x = y = 1,
a = b = 2. -/
theorem c3_witness :
    (pushHistory [[(2, 2)]] [(1, 1)]).head? = some [(1, 1)] ∧
    (processResult ⟨true, [], [[(2, 2)]], []⟩ [1, 1]).emitted.getLast?
      = some [(1 * (7/10) + 2 * (3/10), 1 * (7/10) + 2 * (3/10))] :=
  c3_history_pushed_before_smoothing true [] [] 1 1 2 2 (by norm_num) (by norm_num)

/-- C4, counterexample: on new pose [(2,3)] with history
[[(4,5)],[(6,7)]], the source order (most-recent entry applied first) gives
[(101/25, 126/25)], while the claimed oldest-considered-first order gives
[(92/25, 117/25)]: the two disagree, refuting the claimed iteration
order. -/
theorem c4_counterexample :
    smoothPose [[(4, 5)], [(6, 7)]] [(2, 3)] = [(101/25, 126/25)] ∧
    smoothPoseSpec [[(4, 5)], [(6, 7)]] [(2, 3)] = [(92/25, 117/25)] ∧
    smoothPose [[(4, 5)], [(6, 7)]] [(2, 3)]
      ≠ smoothPoseSpec [[(4, 5)], [(6, 7)]] [(2, 3)] := by
  have e1 : smoothPose [[(4, 5)], [(6, 7)]] [(2, 3)] = [(101/25, 126/25)] := by
    norm_num [smoothPose, smoothKeypoint, List.enum, List.enumFrom] <;> simp
  have e2 : smoothPoseSpec [[(4, 5)], [(6, 7)]] [(2, 3)] = [(92/25, 117/25)] := by
    norm_num [smoothPoseSpec, smoothKeypointSpec, List.enum, List.enumFrom] <;> simp
  refine ⟨e1, e2, ?_⟩
  rw [e1, e2]
  norm_num

/-- C4, amended: smoothing blends with weight 0.6·0.5^j exactly as claimed,
but the iterative update runs from the MOST-recent history entry (j = 0,
applied first) to the oldest-considered one (applied last), as the nested
two-entry formula shows: the j = 0 entry is folded in first and then
attenuated by the j = 1 update. -/
theorem c4_most_recent_applied_first (x y a b c d : ℚ) (hx : ¬(x = 0 ∧ y = 0))
    (h0 : ¬(a = 0 ∧ b = 0)) (h1 : ¬(c = 0 ∧ d = 0)) :
    smoothPose [[(a, b)], [(c, d)]] [(x, y)]
      = [((x * (1 - 3/5) + a * (3/5)) * (1 - 3/10) + c * (3/10),
          (y * (1 - 3/5) + b * (3/5)) * (1 - 3/10) + d * (3/10))] := by
  simp [smoothPose, smoothKeypoint, List.enum, List.enumFrom, hx, h0, h1]
  constructor <;> ring

/-- C4, witness: the amended theorem at concrete values 1, 2, 3. -/
theorem c4_witness :
    smoothPose [[(2, 2)], [(3, 3)]] [(1, 1)]
      = [((1 * (1 - 3/5) + 2 * (3/5)) * (1 - 3/10) + 3 * (3/10),
          (1 * (1 - 3/5) + 2 * (3/5)) * (1 - 3/10) + 3 * (3/10))] :=
  c4_most_recent_applied_first 1 1 2 2 3 3 (by norm_num) (by norm_num) (by norm_num)


theorem advance_ne_nil (w : List FlatVector) (v : FlatVector) : advance w v ≠ [] := by
  simp [advance]

theorem advanceN_length (vs : List FlatVector) : ∀ w : List FlatVector, w ≠ [] →
    (advanceN w vs).length = w.length := by
  induction vs with
  | nil => intro w _; rfl
  | cons v vs ih =>
    intro w hw
    show (advanceN (advance w v) vs).length = w.length
    rw [ih (advance w v) (advance_ne_nil w v), advance_length w v hw]

theorem advanceN_eq_drop_append (vs : List FlatVector) : ∀ w : List FlatVector,
    vs.length ≤ w.length → advanceN w vs = w.drop vs.length ++ vs := by
  induction vs with
  | nil => intro w _; simp [advanceN]
  | cons v vs ih =>
    intro w hlen
    have hw : w ≠ [] := by
      intro h
      rw [h] at hlen
      simp at hlen
    have hlen2 : vs.length ≤ (advance w v).length := by
      rw [advance_length w v hw]
      simp at hlen
      omega
    show advanceN (advance w v) vs = w.drop (v :: vs).length ++ (v :: vs)
    rw [ih (advance w v) hlen2]
    have h1 : vs.length ≤ w.tail.length := by
      simp [List.length_tail]
      simp at hlen
      omega
    show (w.tail ++ [v]).drop vs.length ++ vs = w.drop (v :: vs).length ++ (v :: vs)
    rw [List.drop_append_of_le_length h1, ← List.drop_one, List.drop_drop]
    simp [Nat.add_comm]

theorem advanceN_getLast (vs : List FlatVector) : ∀ w : List FlatVector, vs ≠ [] →
    (advanceN w vs).getLast? = vs.getLast? := by
  induction vs with
  | nil => intro w h; exact absurd rfl h
  | cons v vs ih =>
    intro w _
    cases vs with
    | nil => simp [advanceN, advance, List.getLast?_concat]
    | cons v2 t =>
      show (advanceN (advance w v) (v2 :: t)).getLast? = (v :: v2 :: t).getLast?
      rw [ih (advance w v) (List.cons_ne_nil v2 t)]
      simp

/-- C7, amended: advancing the window drops index 0 and appends at the end:
after N advances (N ≤ W) the window equals `seed.drop N ++ appended` (order
of survivors preserved), the length is still W, and the last entry is the
N-th appended vector; provided the seed entries are pairwise distinct and no
appended vector equals one of the seed's first N entries, the seed's first N
entries are no longer present. -/
theorem c7_advance_invariants (seed vs : List FlatVector)
    (hne : seed ≠ []) (hN : vs.length ≤ seed.length) (hnd : seed.Nodup)
    (hdisj : ∀ v ∈ vs, v ∉ seed.take vs.length) :
    advanceN seed vs = seed.drop vs.length ++ vs ∧
    (advanceN seed vs).length = seed.length ∧
    (vs ≠ [] → (advanceN seed vs).getLast? = vs.getLast?) ∧
    ∀ i < vs.length, ∀ x, seed.get? i = some x → x ∉ advanceN seed vs := by
  refine ⟨advanceN_eq_drop_append vs seed hN, advanceN_length vs seed hne,
      fun h => advanceN_getLast vs seed h, ?_⟩
  intro i hi x hx hmem
  rw [advanceN_eq_drop_append vs seed hN] at hmem
  have hxtake : x ∈ seed.take vs.length :=
    List.get?_mem (by rw [List.get?_take hi]; exact hx)
  rcases List.mem_append.1 hmem with hdrop | hvs
  · have hdisj2 : List.Disjoint (seed.take vs.length) (seed.drop vs.length) := by
      apply List.disjoint_of_nodup_append
      rw [List.take_append_drop]
      exact hnd
    exact hdisj2 hxtake hdrop
  · exact hdisj x hvs hxtake

/-- C7, witness: the amended theorem at seed [[0],[1]] and one appended
vector [[2]]. -/
theorem c7_witness :
    advanceN [[0], [1]] [[2]] = [[0], [1]].drop 1 ++ [[2]] ∧
    (advanceN [[0], [1]] [[2]]).length = 2 ∧
    (([[2]] : List FlatVector) ≠ [] →
      (advanceN [[0], [1]] [[2]]).getLast? = ([[2]] : List FlatVector).getLast?) ∧
    ∀ i < ([[2]] : List FlatVector).length, ∀ x, [[0], [1]].get? i = some x →
      x ∉ advanceN [[0], [1]] [[2]] :=
  c7_advance_invariants [[0], [1]] [[2]] (by decide) (by decide) (by decide) (by decide)

/-- C7, counterexample: with the duplicated seed [[0],[0]], after one
advance the window [[0],[1]] still contains the seed's first entry [0] —
refuting the unconditional claim that the seed's first N entries are no
longer present. -/
theorem c7_counterexample :
    advanceN [[0], [0]] [[1]] = [[0], [1]] ∧
    ([[0], [0]] : List FlatVector).get? 0 = some [0] ∧
    [0] ∈ advanceN [[0], [0]] [[1]] := by
  refine ⟨?_, rfl, ?_⟩ <;> decide


theorem range_map_getD (l : List ℚ) :
    (List.range l.length).map (fun i => l.getD i 0) = l := by
  induction l with
  | nil => simp
  | cons x xs ih =>
    rw [List.length_cons, List.range_succ_eq_map, List.map_cons, List.map_map]
    congr 1

theorem sum_map_div (l : List ℚ) (c : ℚ) :
    (l.map (fun w => w / c)).sum = l.sum / c := by
  simp only [div_eq_mul_inv]
  simpa using List.sum_map_mul_right l id c⁻¹

theorem softmax_sum_one (P : Prims) (l : List ℚ) (m : ℚ) (hl : l ≠ [])
    (hexp : ∀ x, 0 < P.exp x) :
    ((l.map (fun x => P.exp (x - m))).map
        (fun w => w / (l.map (fun x => P.exp (x - m))).sum)).sum = 1 ∧
    ∀ w ∈ (l.map (fun x => P.exp (x - m))).map
        (fun w => w / (l.map (fun x => P.exp (x - m))).sum), 0 < w := by
  have hpos : ∀ w ∈ l.map (fun x => P.exp (x - m)), 0 < w := by
    intro w hw
    rcases List.mem_map.1 hw with ⟨x, _, rfl⟩
    exact hexp _
  have hene : l.map (fun x => P.exp (x - m)) ≠ [] := by
    simp [hl]
  have hsum : 0 < (l.map (fun x => P.exp (x - m))).sum :=
    List.sum_pos _ hpos hene
  constructor
  · rw [sum_map_div]
    exact div_self (ne_of_gt hsum)
  · intro w hw
    rcases List.mem_map.1 hw with ⟨w0, hw0, rfl⟩
    exact div_pos (hpos w0 hw0) hsum

/-- C9: at temperature 1 the categorical weights are exactly the input
weight vector (no scaling, no softmax); at any temperature other than 1 the
max-subtracting softmax of the temperature-scaled logits yields a
probability vector: all entries positive and summing to 1 (given that the
abstract `exp` is positive, as the real exponential is). -/
theorem c9_temperature_weights (P : Prims) (pi_ : List ℚ) (M : Nat) (t : ℚ)
    (hlen : pi_.length = M) (hM : 0 < M) (hexp : ∀ x, 0 < P.exp x) :
    componentWeights P pi_ M 1 = pi_ ∧
    (t ≠ 1 → (componentWeights P pi_ M t).sum = 1 ∧
      ∀ w ∈ componentWeights P pi_ M t, 0 < w) := by
  constructor
  · subst hlen
    unfold componentWeights
    rw [if_neg (by simp)]
    exact range_map_getD pi_
  · intro ht
    have hcw : componentWeights P pi_ M t
        = (((List.range M).map (fun i => pi_.getD i 0 / t)).map
              (fun x => P.exp
                (x - (listMax ((List.range M).map (fun i => pi_.getD i 0 / t))).getD 0))).map
            (fun w => w / (((List.range M).map (fun i => pi_.getD i 0 / t)).map
              (fun x => P.exp
                (x - (listMax
                  ((List.range M).map (fun i => pi_.getD i 0 / t))).getD 0))).sum) := by
      unfold componentWeights
      rw [if_pos ht]
    have hne : (List.range M).map (fun i => pi_.getD i 0 / t) ≠ [] := by
      simp [List.range_eq_nil]
      omega
    have h := softmax_sum_one P ((List.range M).map (fun i => pi_.getD i 0 / t))
      ((listMax ((List.range M).map (fun i => pi_.getD i 0 / t))).getD 0) hne hexp
    rw [hcw]
    exact ⟨h.1, h.2⟩

/-- C9, witness: with `exp` the constant-1 positive function and
pi = [2,3]: at temperature 1 the weights are [2,3] unchanged, and at
temperature 2 the softmax weights sum to 1. -/
theorem c9_witness :
    componentWeights ⟨fun _ => 1, id, id, id, 0⟩ [2, 3] 2 1 = [2, 3] ∧
    (componentWeights ⟨fun _ => 1, id, id, id, 0⟩ [2, 3] 2 2).sum = 1 := by
  have h := c9_temperature_weights ⟨fun _ => 1, id, id, id, 0⟩ [2, 3] 2 2 (by decide)
    (by decide) (fun _ => one_pos)
  exact ⟨h.1, (h.2 (by norm_num)).1⟩


theorem catFind_lt_length (r : ℚ) : ∀ (ps : List ℚ) (acc : ℚ) (j : Nat),
    catFind r acc ps = some j → j < ps.length := by
  intro ps
  induction ps with
  | nil => intro acc j h; simp [catFind] at h
  | cons p rest ih =>
    intro acc j h
    rw [catFind] at h
    by_cases hc : r < acc + p
    · rw [if_pos hc] at h
      cases h
      simp
    · rw [if_neg hc] at h
      rcases Option.map_eq_some'.1 h with ⟨j2, hj2, hj3⟩
      have := ih (acc + p) j2 hj2
      simp only [List.length_cons]
      omega

theorem catFind_of_least (r : ℚ) : ∀ (ps : List ℚ) (acc : ℚ) (j : Nat),
    j < ps.length → r < acc + (ps.take (j + 1)).sum →
    (∀ k < j, ¬ r < acc + (ps.take (k + 1)).sum) →
    catFind r acc ps = some j := by
  intro ps
  induction ps with
  | nil => intro acc j h; simp at h
  | cons p rest ih =>
    intro acc j hj hlt hleast
    match j with
    | 0 =>
      have h0 : r < acc + p := by simpa using hlt
      rw [catFind, if_pos h0]
    | j + 1 =>
      have h0 : ¬ r < acc + p := by
        have := hleast 0 (Nat.succ_pos _)
        simpa using this
      rw [catFind, if_neg h0]
      have hrec : catFind r (acc + p) rest = some j := by
        apply ih (acc + p) j (by simpa using hj)
        · have : r < acc + (p + (rest.take (j + 1)).sum) := by simpa using hlt
          rw [← add_assoc] at this
          exact this
        · intro k hk
          have := hleast (k + 1) (by omega)
          simp only [List.take_succ_cons, List.sum_cons] at this
          rw [← add_assoc] at this
          exact this
      rw [hrec]
      rfl

theorem catFind_none (r : ℚ) : ∀ (ps : List ℚ) (acc : ℚ),
    (∀ k < ps.length, ¬ r < acc + (ps.take (k + 1)).sum) →
    catFind r acc ps = none := by
  intro ps
  induction ps with
  | nil => intro acc _; rfl
  | cons p rest ih =>
    intro acc hall
    have h0 : ¬ r < acc + p := by
      have := hall 0 (Nat.succ_pos _)
      simpa using this
    rw [catFind, if_neg h0]
    have hrec : catFind r (acc + p) rest = none := by
      apply ih (acc + p)
      intro k hk
      have := hall (k + 1) (by simpa using Nat.succ_lt_succ hk)
      simp only [List.take_succ_cons, List.sum_cons] at this
      rw [← add_assoc] at this
      exact this
    rw [hrec]
    rfl

theorem listMax_isSome (l : List ℚ) (hl : l ≠ []) : ∃ m, listMax l = some m := by
  cases l with
  | nil => exact absurd rfl hl
  | cons x rest => exact ⟨_, rfl⟩

theorem listMax_mem : ∀ (l : List ℚ) (m : ℚ), listMax l = some m → m ∈ l := by
  intro l
  induction l with
  | nil => intro m h; simp [listMax] at h
  | cons x rest ih =>
    intro m h
    rw [listMax] at h
    cases hr : listMax rest with
    | none =>
      rw [hr] at h
      simp at h
      simp [h]
    | some m2 =>
      rw [hr] at h
      simp at h
      rcases max_choice x m2 with hm | hm
    
      · rw [hm] at h
        simp [h]
      · rw [hm] at h
        have := ih m2 hr
        rw [h] at this
        simp [this]

theorem le_listMax : ∀ (l : List ℚ) (m : ℚ), listMax l = some m → ∀ q ∈ l, q ≤ m := by
  intro l
  induction l with
  | nil => intro m _ q hq; simp at hq
  | cons x rest ih =>
    intro m h q hq
    rw [listMax] at h
    cases hr : listMax rest with
    | none =>
      rw [hr] at h
      simp at h
      rcases List.mem_cons.1 hq with rfl | hq2
      · exact le_of_eq h
      · cases rest with
        | nil => simp at hq2
        | cons y t => simp [listMax] at hr
    | some m2 =>
      rw [hr] at h
      simp at h
      rcases List.mem_cons.1 hq with rfl | hq2
      · rw [← h]
        exact le_max_left _ _
      · rw [← h]
        exact le_trans (ih m2 hr q hq2) (le_max_right _ _)


theorem sampleFromCategorical_eq_find (r : ℚ) (probs : List ℚ) (j : Nat)
    (h : catFind r 0 probs = some j) : sampleFromCategorical r probs = (j : Int) := by
  unfold sampleFromCategorical
  rw [h]

theorem sampleFromCategorical_eq_fallback (r : ℚ) (probs : List ℚ)
    (h : catFind r 0 probs = none) :
    sampleFromCategorical r probs = maxIndexFallback probs := by
  unfold sampleFromCategorical
  rw [h]

/-- C6: for every nonempty probability vector with non-negative entries and
every uniform draw r, the categorical draw yields an index in [0, M); it
returns the first index whose cumulative sum exceeds r when one exists, and
otherwise falls back to an index holding the maximum weight — so it always
returns a valid component index and never fails. -/
theorem c6_categorical_in_range (r : ℚ) (probs : List ℚ) (hne : probs ≠ [])
    (hnn : ∀ p ∈ probs, 0 ≤ p) :
    (0 ≤ sampleFromCategorical r probs ∧
      sampleFromCategorical r probs < (probs.length : Int)) ∧
    (∀ j : Nat, j < probs.length → r < (probs.take (j + 1)).sum →
      (∀ k < j, ¬ r < (probs.take (k + 1)).sum) →
      sampleFromCategorical r probs = (j : Int)) ∧
    ((∀ k < probs.length, ¬ r < (probs.take (k + 1)).sum) →
      ∃ i : Nat, sampleFromCategorical r probs = (i : Int) ∧ i < probs.length ∧
        ∀ q ∈ probs, q ≤ probs.getD i 0) := by
  refine ⟨?_, ?_, ?_⟩
  · cases hc : catFind r 0 probs with
    | some j =>
      rw [sampleFromCategorical_eq_find r probs j hc]
      have hj := catFind_lt_length r probs 0 j hc
      exact ⟨Int.natCast_nonneg j, by exact_mod_cast hj⟩
    | none =>
      rw [sampleFromCategorical_eq_fallback r probs hc]
      obtain ⟨m, hm⟩ := listMax_isSome probs hne
      have hmem := listMax_mem probs m hm
      have hidx : probs.indexOf m < probs.length := List.indexOf_lt_length.2 hmem
      simp only [maxIndexFallback, hm]
      exact ⟨Int.natCast_nonneg _, by exact_mod_cast hidx⟩
  · intro j hj hlt hleast
    apply sampleFromCategorical_eq_find
    apply catFind_of_least r probs 0 j hj
    · simpa using hlt
    · intro k hk
      simpa using hleast k hk
  · intro hall
    have hc : catFind r 0 probs = none := by
      apply catFind_none
      intro k hk
      simpa using hall k hk
    rw [sampleFromCategorical_eq_fallback r probs hc]
    obtain ⟨m, hm⟩ := listMax_isSome probs hne
    have hmem := listMax_mem probs m hm
    have hidx : probs.indexOf m < probs.length := List.indexOf_lt_length.2 hmem
    refine ⟨probs.indexOf m, ?_, hidx, ?_⟩
    · simp only [maxIndexFallback, hm]
    · intro q hq
      have hgd : probs.getD (probs.indexOf m) 0 = m := by
        rw [List.getD_eq_get?, List.get?_eq_get hidx]
        simp [List.indexOf_get]
      rw [hgd]
      exact le_listMax probs m hm q hq

/-- C6, witness: the theorem instantiated at r = 1/2 and
probs = [1/4, 1/2, 1/4]. -/
theorem c6_witness :
    ((0 ≤ sampleFromCategorical (1/2) [1/4, 1/2, 1/4] ∧
      sampleFromCategorical (1/2) [1/4, 1/2, 1/4]
        < (([1/4, 1/2, 1/4] : List ℚ).length : Int)) ∧
    (∀ j : Nat, j < ([1/4, 1/2, 1/4] : List ℚ).length →
      (1/2 : ℚ) < (([1/4, 1/2, 1/4] : List ℚ).take (j + 1)).sum →
      (∀ k < j, ¬ (1/2 : ℚ) < (([1/4, 1/2, 1/4] : List ℚ).take (k + 1)).sum) →
      sampleFromCategorical (1/2) [1/4, 1/2, 1/4] = (j : Int)) ∧
    ((∀ k < ([1/4, 1/2, 1/4] : List ℚ).length,
        ¬ (1/2 : ℚ) < (([1/4, 1/2, 1/4] : List ℚ).take (k + 1)).sum) →
      ∃ i : Nat, sampleFromCategorical (1/2) [1/4, 1/2, 1/4] = (i : Int) ∧
        i < ([1/4, 1/2, 1/4] : List ℚ).length ∧
        ∀ q ∈ ([1/4, 1/2, 1/4] : List ℚ), q ≤ ([1/4, 1/2, 1/4] : List ℚ).getD i 0)) :=
  c6_categorical_in_range (1/2) [1/4, 1/2, 1/4] (by simp) (by norm_num)

end Move
